import Mathlib

/-!
Verification of the shared-stack maintenance tool (`shared_stack.py`).

The Python data model (`Product`, `ProductTracker`) and the reconciliation
loop in `main` are embedded shallowly: dictionaries become association
lists, Python sets become lists maintained with membership-checking
insertion (so that set semantics is preserved up to membership and the
first-seen iteration order), and external commands (`eups distrib
install`) become an oracle parameter describing, for each attempted
install, whether the command failed or which refreshed local inventory it
produced.  Operations that can raise in Python (`KeyError`,
`set.union()` on no arguments, `CalledProcessError`) are modelled with
`Option` results.
-/

/-- First-match lookup in an association list, mirroring a Python
dictionary read `d[k]` (which raises `KeyError` when absent: `none`). -/
def lookupA {α : Type} : List (String × α) → String → Option α
  | [], _ => none
  | (k, v) :: rest, key => if k = key then some v else lookupA rest key

/-- Update every entry under a key, mirroring an in-place mutation of the
value stored at that key of a Python dictionary. -/
def updateA {α : Type} (l : List (String × α)) (key : String) (f : α → α) :
    List (String × α) :=
  l.map (fun kv => if kv.1 = key then (kv.1, f kv.2) else kv)

/-- Python `set.add`: keep the element list duplicate-free. -/
def setInsert (l : List String) (x : String) : List String :=
  if x ∈ l then l else l ++ [x]

/-- Python set union of two sets represented as duplicate-free lists. -/
def setUnion (a b : List String) : List String :=
  b.foldl setInsert a

/-- `set.union(*sets)` over a non-empty argument list (the empty case is
handled at the call sites, where Python raises `TypeError`). -/
def unionAll (ls : List (List String)) : List String :=
  ls.foldl setUnion []

/-- Does one character list start with another (helper for the Python
substring test)? -/
def leadsWith : List Char → List Char → Bool
  | [], _ => true
  | _ :: _, [] => false
  | a :: as, b :: bs => a = b && leadsWith as bs

/-- Substring occurrence on character lists. -/
def occursIn (n : List Char) : List Char → Bool
  | [] => leadsWith n []
  | c :: t => leadsWith n (c :: t) || occursIn n t

/-- Python `needle in haystack` on strings: substring containment.  This
is the semantics of `tag in ("setup")` in `_refresh_products` — the
parentheses do not build a tuple, so the test is a substring check
against the five-character string. -/
def strIn (needle haystack : String) : Bool :=
  occursIn needle.toList haystack.toList

/-- Python `s.split(sep)` for a one-character separator: `""` splits to
`[""]`, and empty fields are kept. -/
def splitCh (sep : Char) : List Char → List (List Char)
  | [] => [[]]
  | c :: cs =>
    if c = sep then [] :: splitCh sep cs
    else
      match splitCh sep cs with
      | [] => [[c]]
      | g :: gs => (c :: g) :: gs

/-- `tags.split(":")` from `_refresh_products`. -/
def splitTags (s : String) : List String :=
  (splitCh ':' s.toList).map (fun cs => String.mk cs)

/-- `Product` from `shared_stack.py`: a product name together with the
map from version to the set of tags attached to that version
(`self._versions`). -/
structure Product where
  name : String
  versions : List (String × List String)
deriving DecidableEq, Repr

/-- `Product.add_version`: register the version with an empty tag set
unless it is already present. -/
def Product.add_version (p : Product) (v : String) : Product :=
  if lookupA p.versions v = none then
    { p with versions := p.versions ++ [(v, [])] }
  else p

/-- `Product.add_tag` as written: `self._versions[version].add(tag)`,
which raises `KeyError` (here `none`) when the version was never
registered. -/
def Product.add_tag? (p : Product) (v t : String) : Option Product :=
  match lookupA p.versions v with
  | none => none
  | some _ => some { p with versions := updateA p.versions v (fun ts => setInsert ts t) }

/-- The effect of `Product.add_tag` on a product whose version is known
to be registered (the only way `ProductTracker.insert` reaches it). -/
def Product.add_tag (p : Product) (v t : String) : Product :=
  { p with versions := updateA p.versions v (fun ts => setInsert ts t) }

/-- `Product.versions(tag=tag)`: the versions carrying a given tag. -/
def Product.versionsTagged (p : Product) (tag : String) : List String :=
  (p.versions.filter (fun vt => decide (tag ∈ vt.2))).map (fun vt => vt.1)

/-- `Product.tags(version=None)`: `set.union(*self._versions.values())`,
which raises `TypeError` (here `none`) when there are no versions at
all. -/
def Product.tagsAll (p : Product) : Option (List String) :=
  match p.versions with
  | [] => none
  | _ => some (unionAll (p.versions.map (fun vt => vt.2)))

/-- `Product.tags(version=v)`: the tag set of one registered version;
`KeyError` (here `none`) when the version was never registered. -/
def Product.tagsOf (p : Product) (v : String) : Option (List String) :=
  lookupA p.versions v

/-- Is the version registered for the product (`version in
self._versions`)? -/
def Product.hasVersionB (p : Product) (v : String) : Bool :=
  (lookupA p.versions v).isSome

/-- `ProductTracker`: the `self._products` dictionary. -/
structure ProductTracker where
  products : List (String × Product)
deriving DecidableEq, Repr

/-- The first two lines of `ProductTracker.insert`: create an empty
`Product` under the name unless one is already tracked. -/
def ensureP (l : List (String × Product)) (product : String) :
    List (String × Product) :=
  if lookupA l product = none then l ++ [(product, Product.mk product [])]
  else l

/-- `ProductTracker.insert` as written, with a possible `Product.add_tag`
`KeyError` surfaced as `none`: ensure the product exists, register the
version, and, when `tag` is truthy (not `None` and not the empty
string), add the tag to that version. -/
def ProductTracker.insertE (pt : ProductTracker) (product version : String)
    (tag : Option String) : Option ProductTracker :=
  match tag with
  | none =>
    some ⟨updateA (ensureP pt.products product) product
      (fun q => Product.add_version q version)⟩
  | some t =>
    if t = "" then
      some ⟨updateA (ensureP pt.products product) product
        (fun q => Product.add_version q version)⟩
    else
      match lookupA (updateA (ensureP pt.products product) product
          (fun q => Product.add_version q version)) product with
      | none => none
      | some p =>
        match Product.add_tag? p version t with
        | none => none
        | some _ =>
          some ⟨updateA (updateA (ensureP pt.products product) product
            (fun q => Product.add_version q version)) product
            (fun q => Product.add_tag q version t)⟩

/-- `ProductTracker.insert`, total form: the error branches of
`ProductTracker.insertE` are proved unreachable below. -/
def ProductTracker.insert (pt : ProductTracker) (product version : String)
    (tag : Option String) : ProductTracker :=
  match tag with
  | none =>
    ⟨updateA (ensureP pt.products product) product
      (fun q => Product.add_version q version)⟩
  | some t =>
    if t = "" then
      ⟨updateA (ensureP pt.products product) product
        (fun q => Product.add_version q version)⟩
    else
      ⟨updateA (updateA (ensureP pt.products product) product
        (fun q => Product.add_version q version)) product
        (fun q => Product.add_tag q version t)⟩

/-- `ProductTracker.tags_for_product`, total form: the union of the tag
sets over all versions of the product, the empty set when the product is
unknown (the `except KeyError` branch). -/
def ProductTracker.tags_for_product (pt : ProductTracker) (name : String) :
    List String :=
  match lookupA pt.products name with
  | none => []
  | some p => unionAll (p.versions.map (fun vt => vt.2))

/-- `ProductTracker.tags_for_product` with the error of
`Product.tags()` on a version-less product kept visible: `KeyError` on
the dictionary is caught (empty set), but the `TypeError` of
`set.union()` on zero arguments is not (`none`). -/
def ProductTracker.tags_for_productE (pt : ProductTracker) (name : String) :
    Option (List String) :=
  match lookupA pt.products name with
  | none => some []
  | some p => Product.tagsAll p

/-- `ProductTracker.products_for_tag`: every `(product name, version)`
pair carrying the tag, in dictionary iteration order. -/
def ProductTracker.products_for_tag (pt : ProductTracker) (tag : String) :
    List (String × String) :=
  pt.products.foldl
    (fun acc kp => acc ++ (kp.2.versionsTagged tag).map (fun v => (kp.2.name, v)))
    []

/-- `ProductTracker.has_version`. -/
def ProductTracker.has_version (pt : ProductTracker) (name version : String) :
    Bool :=
  match lookupA pt.products name with
  | none => false
  | some p => p.hasVersionB version

/-- Every tracked product has at least one registered version.  This is
the invariant that keeps `Product.tags()` (a union over the version
dictionary's values) applicable inside
`ProductTracker.tags_for_product`. -/
def ProductTracker.Inv (pt : ProductTracker) : Prop :=
  ∀ e ∈ pt.products, e.2.versions ≠ []

instance (pt : ProductTracker) : Decidable pt.Inv := by
  unfold ProductTracker.Inv
  infer_instance

/-- One line `product|version|colon-separated-tags` of
`StackManager._refresh_products`: an untagged insert when the tag field
is empty, then one insert per colon-separated tag, skipping any tag for
which the Python test `tag in ("setup")` — substring containment in the
string `"setup"` — holds. -/
def refreshLine (pt : ProductTracker) (product version tags : String) :
    ProductTracker :=
  let pt1 := if tags = "" then pt.insert product version none else pt
  (splitTags tags).foldl
    (fun acc tag =>
      if strIn tag "setup" then acc else acc.insert product version (some tag))
    pt1

/-- `RepositoryManager` after construction: the remote tracker together
with the `tag_dates` dictionary (timestamps as natural numbers). -/
structure RepoM where
  tracker : ProductTracker
  dates : List (String × Nat)
deriving DecidableEq, Repr

/-- `rm.tag_dates[tag]` (with a default for the absent case, which the
constructor invariant rules out for tags in the tracker). -/
def RepoM.dateOf (rm : RepoM) (tag : String) : Nat :=
  (lookupA rm.dates tag).getD 0

/-- `RepositoryManager.tags_for_product`. -/
def RepoM.tags_for_product (rm : RepoM) (name : String) : List String :=
  rm.tracker.tags_for_product name

/-- `RepositoryManager.products_for_tag`. -/
def RepoM.products_for_tag (rm : RepoM) (tag : String) : List (String × String) :=
  rm.tracker.products_for_tag tag

/-- Observable calls the reconciliation loop in `main` makes against the
local stack: the `print`/install attempt for a candidate tag, the
registration of a new global tag, an invocation of
`StackManager.apply_tag`, and the `eups declare` command it runs when
the version is present locally. -/
inductive Event where
  | consider (product : String)
  | installAttempt (product tag : String)
  | addGlobalTag (tag : String)
  | applyTagCall (product version tag : String)
  | declareCmd (product version tag : String)
deriving DecidableEq, Repr

/-- The mutable local side of `main`: the `StackManager` tracker
(rebuilt by `_refresh_products` after each successful install) and the
set of global tags `eups tags` reports. -/
structure EngineState where
  localT : ProductTracker
  globalTags : List String
deriving DecidableEq, Repr

/-- Outcome of one `eups distrib install` command: `none` models
`CalledProcessError` (nonzero exit, state unchanged because the refresh
is never reached), `some pt` models success followed by
`_refresh_products` rebuilding the local tracker as `pt`.  The whole
engine state is an argument so that the outcome may depend on
everything installed so far. -/
def Oracle : Type :=
  EngineState → String → String → Option ProductTracker

/-- `StackManager.apply_tag`: always invoked (first event); the
`eups declare` command and the tracker insert happen only when the
version is present locally. -/
def applyTag (st : EngineState) (name version tagname : String) :
    EngineState × List Event :=
  if st.localT.has_version name version then
    ({ st with localT := st.localT.insert name version (some tagname) },
     [Event.applyTagCall name version tagname,
      Event.declareCmd name version tagname])
  else
    (st, [Event.applyTagCall name version tagname])

/-- A Python `for` loop whose body updates the engine state and emits
events. -/
def foldEvents {α : Type} (f : EngineState → α → EngineState × List Event) :
    EngineState → List α → EngineState × List Event
  | st, [] => (st, [])
  | st, x :: xs =>
    let r1 := f st x
    let r2 := foldEvents f r1.1 xs
    (r2.1, r1.2 ++ r2.2)

/-- The body of `for tag in candidate_tags` in `main`: attempt the
install; on failure print and continue with the state unchanged; on
success adopt the refreshed tracker, register the tag globally if
`eups tags` does not list it, and apply the tag to every
`(sub_product, version)` pair the remote catalog reports for it. -/
def processTag (rm : RepoM) (outcome : Oracle) (st : EngineState)
    (product tag : String) : EngineState × List Event :=
  match outcome st product tag with
  | none => (st, [Event.installAttempt product tag])
  | some newT =>
    let st1 : EngineState := { st with localT := newT }
    let r2 :=
      if tag ∈ st1.globalTags then (st1, ([] : List Event))
      else ({ st1 with globalTags := st1.globalTags ++ [tag] },
            [Event.addGlobalTag tag])
    let r3 := foldEvents (fun s pv => applyTag s pv.1 pv.2 tag) r2.1
      (rm.products_for_tag tag)
    (r3.1, Event.installAttempt product tag :: (r2.2 ++ r3.2))

/-- `candidate_tags = server_tags - installed_tags` in `main`. -/
def candidateTags (rm : RepoM) (st : EngineState) (product : String) :
    List String :=
  (rm.tags_for_product product).filter
    (fun t => decide (t ∉ st.localT.tags_for_product product))

/-- The install loop of `main` for one product. -/
def installPhase (rm : RepoM) (outcome : Oracle) (st : EngineState)
    (product : String) : EngineState × List Event :=
  foldEvents (fun s tag => processTag rm outcome s product tag) st
    (candidateTags rm st product)

/-- `available_tags = server_tags.intersection(sm.tags_for_product(product))`
in `main`, evaluated on the post-install state. -/
def availableTags (rm : RepoM) (st : EngineState) (product : String) :
    List String :=
  (rm.tags_for_product product).filter
    (fun t => decide (t ∈ st.localT.tags_for_product product))

/-- Python `max(xs, key=key)`: the first element encountered whose key
is maximal (a later element replaces the running maximum only when its
key is strictly greater); `none` on the empty collection, where Python
raises `ValueError` — `main` guards against that case. -/
def pyMaxBy (key : String → Nat) : List String → Option String
  | [] => none
  | x :: xs =>
    some (xs.foldl (fun acc y => if key y > key acc then y else acc) x)

/-- `max(available_tags, key=lambda tag: rm.tag_dates[tag])` in `main`. -/
def chooseCurrent (rm : RepoM) (av : List String) : Option String :=
  pyMaxBy rm.dateOf av

/-- The current-tag election of `main` for one product: when the
available set is non-empty, apply the reserved tag `"current"` to every
`(sub_product, version)` pair of the elected tag. -/
def currentPhase (rm : RepoM) (st : EngineState) (product : String) :
    EngineState × List Event :=
  match chooseCurrent rm (availableTags rm st product) with
  | none => (st, [])
  | some cur =>
    foldEvents (fun s pv => applyTag s pv.1 pv.2 "current") st
      (rm.products_for_tag cur)

/-- One iteration of `for product in cfg.products` in `main`. -/
def processProduct (rm : RepoM) (outcome : Oracle) (st : EngineState)
    (product : String) : EngineState × List Event :=
  let r1 := installPhase rm outcome st product
  let r2 := currentPhase rm r1.1 product
  (r2.1, Event.consider product :: (r1.2 ++ r2.2))

/-- The whole reconciliation loop of `main`. -/
def mainLoop (rm : RepoM) (outcome : Oracle) (st : EngineState)
    (products : List String) : EngineState × List Event :=
  foldEvents (fun s p => processProduct rm outcome s p) st products

/-- The tags of the install attempts recorded for one product. -/
def installAttemptsFor (evs : List Event) (product : String) : List String :=
  evs.filterMap (fun e =>
    match e with
    | Event.installAttempt q t => if q = product then some t else none
    | _ => none)

/-- The tag arguments of every `apply_tag` invocation and every
`eups declare` command in a trace. -/
def tagsApplied (evs : List Event) : List String :=
  evs.filterMap (fun e =>
    match e with
    | Event.applyTagCall _ _ t => some t
    | Event.declareCmd _ _ t => some t
    | _ => none)

theorem mem_setInsert (l : List String) (x y : String) :
    y ∈ setInsert l x ↔ y ∈ l ∨ y = x := by
  unfold setInsert
  by_cases h : x ∈ l
  · simp only [if_pos h]
    constructor
    · exact Or.inl
    · rintro (hy | rfl)
      · exact hy
      · exact h
  · simp [if_neg h]

theorem mem_foldl_setInsert (xs : List String) (a : List String) (y : String) :
    y ∈ xs.foldl setInsert a ↔ y ∈ a ∨ y ∈ xs := by
  induction xs generalizing a with
  | nil => simp
  | cons x xs ih =>
    simp only [List.foldl_cons, ih, mem_setInsert, List.mem_cons]
    tauto

theorem mem_setUnion (a b : List String) (y : String) :
    y ∈ setUnion a b ↔ y ∈ a ∨ y ∈ b := by
  unfold setUnion
  exact mem_foldl_setInsert b a y

theorem mem_foldl_setUnion (ls : List (List String)) (a : List String)
    (y : String) :
    y ∈ ls.foldl setUnion a ↔ y ∈ a ∨ ∃ l ∈ ls, y ∈ l := by
  induction ls generalizing a with
  | nil => simp
  | cons l ls ih =>
    simp only [List.foldl_cons, ih, mem_setUnion, List.mem_cons]
    constructor
    · rintro ((h | h) | ⟨w, hw, hy⟩)
      · exact Or.inl h
      · exact Or.inr ⟨l, Or.inl rfl, h⟩
      · exact Or.inr ⟨w, Or.inr hw, hy⟩
    · rintro (h | ⟨w, (rfl | hw), hy⟩)
      · exact Or.inl (Or.inl h)
      · exact Or.inl (Or.inr hy)
      · exact Or.inr ⟨w, hw, hy⟩

theorem mem_unionAll (ls : List (List String)) (y : String) :
    y ∈ unionAll ls ↔ ∃ l ∈ ls, y ∈ l := by
  unfold unionAll
  simp [mem_foldl_setUnion]

theorem setInsert_setInsert (l : List String) (x : String) :
    setInsert (setInsert l x) x = setInsert l x := by
  unfold setInsert
  by_cases h : x ∈ l
  · simp [if_pos h]
  · simp [if_neg h]

theorem lookupA_append_of_none {α : Type} (l1 l2 : List (String × α))
    (k : String) (h : lookupA l1 k = none) :
    lookupA (l1 ++ l2) k = lookupA l2 k := by
  induction l1 with
  | nil => simp
  | cons e l1 ih =>
    obtain ⟨k1, v1⟩ := e
    rw [List.cons_append]
    simp only [lookupA] at h ⊢
    by_cases he : k1 = k
    · simp [he] at h
    · simp only [if_neg he] at h ⊢
      exact ih h

theorem lookupA_append_of_some {α : Type} (l1 l2 : List (String × α))
    (k : String) (v : α) (h : lookupA l1 k = some v) :
    lookupA (l1 ++ l2) k = some v := by
  induction l1 with
  | nil => simp [lookupA] at h
  | cons e l1 ih =>
    obtain ⟨k1, v1⟩ := e
    rw [List.cons_append]
    simp only [lookupA] at h ⊢
    by_cases he : k1 = k
    · simpa [if_pos he] using h
    · simp only [if_neg he] at h ⊢
      exact ih h

theorem lookupA_updateA_self {α : Type} (l : List (String × α)) (k : String)
    (f : α → α) :
    lookupA (updateA l k f) k = (lookupA l k).map f := by
  induction l with
  | nil => simp [updateA, lookupA]
  | cons e l ih =>
    unfold updateA lookupA
    by_cases he : e.1 = k
    · simp [he, lookupA]
    · simpa [he, updateA, lookupA] using ih

theorem lookupA_mem {α : Type} (l : List (String × α)) (k : String) (v : α)
    (h : lookupA l k = some v) : (k, v) ∈ l := by
  induction l with
  | nil => simp [lookupA] at h
  | cons e l ih =>
    obtain ⟨k1, v1⟩ := e
    simp only [lookupA] at h
    by_cases he : k1 = k
    · subst he
      simp only [if_pos rfl] at h
      injection h with h
      subst h
      exact List.mem_cons_self _ _
    · simp only [if_neg he] at h
      exact List.mem_cons_of_mem _ (ih h)

theorem updateA_updateA {α : Type} (l : List (String × α)) (k : String)
    (f g : α → α) :
    updateA (updateA l k f) k g = updateA l k (fun x => g (f x)) := by
  unfold updateA
  rw [List.map_map]
  apply List.map_congr_left
  intro kv _
  by_cases he : kv.1 = k
  · simp [he]
  · simp [he]

theorem lookupA_ensureP (l : List (String × Product)) (p : String) :
    ∃ q, lookupA (ensureP l p) p = some q := by
  unfold ensureP
  by_cases h : lookupA l p = none
  · rw [if_pos h, lookupA_append_of_none _ _ _ h]
    exact ⟨Product.mk p [], by simp [lookupA]⟩
  · rw [if_neg h]
    cases hl : lookupA l p with
    | none => exact absurd hl h
    | some q => exact ⟨q, rfl⟩

theorem add_version_lookup_self (q : Product) (v : String) :
    ∃ ts, lookupA (Product.add_version q v).versions v = some ts := by
  unfold Product.add_version
  by_cases h : lookupA q.versions v = none
  · rw [if_pos h]
    refine ⟨[], ?_⟩
    show lookupA (q.versions ++ [(v, [])]) v = some []
    rw [lookupA_append_of_none _ _ _ h]
    simp [lookupA]
  · rw [if_neg h]
    cases hl : lookupA q.versions v with
    | none => exact absurd hl h
    | some ts => exact ⟨ts, rfl⟩

theorem add_version_of_some (q : Product) (v : String) (ts : List String)
    (h : lookupA q.versions v = some ts) : Product.add_version q v = q := by
  unfold Product.add_version
  rw [if_neg (by simp [h])]

theorem add_version_add_version (q : Product) (v : String) :
    Product.add_version (Product.add_version q v) v = Product.add_version q v := by
  obtain ⟨ts, h⟩ := add_version_lookup_self q v
  exact add_version_of_some _ _ _ h

theorem add_tag_lookup_self (q : Product) (v t : String) :
    lookupA (Product.add_tag q v t).versions v =
      (lookupA q.versions v).map (fun ts => setInsert ts t) := by
  unfold Product.add_tag
  show lookupA (updateA q.versions v fun ts => setInsert ts t) v = _
  exact lookupA_updateA_self _ _ _

theorem add_tag_add_tag (q : Product) (v t : String) :
    Product.add_tag (Product.add_tag q v t) v t = Product.add_tag q v t := by
  unfold Product.add_tag
  simp only [updateA_updateA]
  congr 1
  exact congrArg _ (funext fun ts => setInsert_setInsert ts t)

theorem add_cycle (q : Product) (v t : String) :
    Product.add_tag (Product.add_version
        (Product.add_tag (Product.add_version q v) v t) v) v t =
      Product.add_tag (Product.add_version q v) v t := by
  obtain ⟨ts, h⟩ := add_version_lookup_self q v
  have h1 : lookupA (Product.add_tag (Product.add_version q v) v t).versions v =
      some (setInsert ts t) := by
    rw [add_tag_lookup_self, h]
    rfl
  rw [add_version_of_some _ _ _ h1, add_tag_add_tag]

theorem add_version_versions_ne_nil (q : Product) (v : String) :
    (Product.add_version q v).versions ≠ [] := by
  unfold Product.add_version
  by_cases h : lookupA q.versions v = none
  · rw [if_pos h]
    simp
  · rw [if_neg h]
    cases hl : lookupA q.versions v with
    | none => exact absurd hl h
    | some ts =>
      intro hnil
      rw [hnil] at hl
      simp [lookupA] at hl

theorem add_tag_versions_ne_nil (q : Product) (v t : String)
    (h : q.versions ≠ []) : (Product.add_tag q v t).versions ≠ [] := by
  unfold Product.add_tag updateA
  simpa using h

theorem add_tag?_of_registered (q : Product) (v t : String) (ts : List String)
    (h : lookupA q.versions v = some ts) :
    Product.add_tag? q v t = some (Product.add_tag q v t) := by
  unfold Product.add_tag? Product.add_tag
  rw [h]

theorem ensureP_updateA (l : List (String × Product)) (p : String)
    (f : Product → Product) (q : Product) (hq : lookupA l p = some q) :
    ensureP (updateA l p f) p = updateA l p f := by
  unfold ensureP
  rw [lookupA_updateA_self, hq]
  simp

theorem insertE_some (pt : ProductTracker) (product version : String)
    (tag : Option String) :
    ProductTracker.insertE pt product version tag =
      some (ProductTracker.insert pt product version tag) := by
  obtain ⟨q, hq⟩ := lookupA_ensureP pt.products product
  unfold ProductTracker.insertE ProductTracker.insert
  cases tag with
  | none => rfl
  | some t =>
    dsimp only
    by_cases ht : t = ""
    · rw [if_pos ht, if_pos ht]
    · rw [if_neg ht, if_neg ht]
      rw [lookupA_updateA_self, hq, Option.map_some']
      dsimp only
      obtain ⟨ts, hts⟩ := add_version_lookup_self q version
      rw [add_tag?_of_registered _ _ _ _ hts]

theorem insert_insert (pt : ProductTracker) (product version : String)
    (tag : Option String) :
    ProductTracker.insert (ProductTracker.insert pt product version tag)
        product version tag =
      ProductTracker.insert pt product version tag := by
  obtain ⟨q, hq⟩ := lookupA_ensureP pt.products product
  unfold ProductTracker.insert
  cases tag with
  | none =>
    dsimp only
    rw [ensureP_updateA _ _ _ _ hq, updateA_updateA]
    congr 1
    exact congrArg _ (funext fun r => add_version_add_version r version)
  | some t =>
    dsimp only
    by_cases ht : t = ""
    · simp only [if_pos ht]
      rw [ensureP_updateA _ _ _ _ hq, updateA_updateA]
      congr 1
      exact congrArg _ (funext fun r => add_version_add_version r version)
    · simp only [if_neg ht]
      have hq2 : lookupA (updateA (ensureP pt.products product) product
          (fun r => Product.add_version r version)) product =
          some (Product.add_version q version) := by
        rw [lookupA_updateA_self, hq]
        rfl
      rw [ensureP_updateA _ _ _ _ hq2]
      simp only [updateA_updateA]
      congr 1
      exact congrArg _ (funext fun r => add_cycle r version t)

theorem mem_ensureP (l : List (String × Product)) (product : String)
    (e : String × Product) (he : e ∈ ensureP l product) :
    e ∈ l ∨ e = (product, Product.mk product []) := by
  unfold ensureP at he
  by_cases hl : lookupA l product = none
  · rw [if_pos hl] at he
    rcases List.mem_append.mp he with h1 | h1
    · exact Or.inl h1
    · simp at h1
      exact Or.inr (by simp [h1])
  · rw [if_neg hl] at he
    exact Or.inl he

theorem Inv_updateA_version (l : List (String × Product))
    (product version : String)
    (h : ∀ e ∈ l, e.2.versions ≠ [] ∨ e.1 = product) :
    ∀ e ∈ updateA l product (fun q => Product.add_version q version),
      e.2.versions ≠ [] := by
  intro e he
  obtain ⟨kv, hkv, heq⟩ := List.mem_map.mp he
  by_cases hk : kv.1 = product
  · rw [if_pos hk] at heq
    subst heq
    exact add_version_versions_ne_nil _ _
  · rw [if_neg hk] at heq
    subst heq
    rcases h kv hkv with h1 | h1
    · exact h1
    · exact absurd h1 hk

theorem Inv_updateA_tag (l : List (String × Product)) (product version t : String)
    (h : ∀ e ∈ l, e.2.versions ≠ []) :
    ∀ e ∈ updateA l product (fun q => Product.add_tag q version t),
      e.2.versions ≠ [] := by
  intro e he
  obtain ⟨kv, hkv, heq⟩ := List.mem_map.mp he
  by_cases hk : kv.1 = product
  · rw [if_pos hk] at heq
    subst heq
    exact add_tag_versions_ne_nil _ _ _ (h kv hkv)
  · rw [if_neg hk] at heq
    subst heq
    exact h kv hkv

theorem Inv_insert (pt : ProductTracker) (product version : String)
    (tag : Option String) (h : pt.Inv) :
    (pt.insert product version tag).Inv := by
  have hE : ∀ e ∈ ensureP pt.products product,
      e.2.versions ≠ [] ∨ e.1 = product := by
    intro e he
    rcases mem_ensureP _ _ _ he with h1 | h1
    · exact Or.inl (h e h1)
    · subst h1
      exact Or.inr rfl
  have hM : ∀ e ∈ updateA (ensureP pt.products product) product
      (fun q => Product.add_version q version), e.2.versions ≠ [] :=
    Inv_updateA_version _ _ _ hE
  unfold ProductTracker.insert
  cases tag with
  | none => exact hM
  | some t =>
    dsimp only [ProductTracker.Inv]
    by_cases ht : t = ""
    · rw [if_pos ht]
      exact hM
    · rw [if_neg ht]
      exact Inv_updateA_tag _ _ _ _ hM

theorem tags_for_productE_some (pt : ProductTracker) (name : String)
    (h : pt.Inv) :
    pt.tags_for_productE name = some (pt.tags_for_product name) := by
  unfold ProductTracker.tags_for_productE ProductTracker.tags_for_product
    Product.tagsAll
  cases hl : lookupA pt.products name with
  | none => rfl
  | some q =>
    have hne : q.versions ≠ [] := h (name, q) (lookupA_mem _ _ _ hl)
    dsimp only
    cases hv : q.versions with
    | nil => exact absurd hv hne
    | cons a as => rfl

theorem foldEvents_cons {α : Type} (f : EngineState → α → EngineState × List Event)
    (st : EngineState) (x : α) (xs : List α) :
    foldEvents f st (x :: xs) =
      ((foldEvents f (f st x).1 xs).1,
        (f st x).2 ++ (foldEvents f (f st x).1 xs).2) := rfl

theorem installAttemptsFor_append (a b : List Event) (q : String) :
    installAttemptsFor (a ++ b) q =
      installAttemptsFor a q ++ installAttemptsFor b q := by
  unfold installAttemptsFor
  exact List.filterMap_append _ _ _

theorem tagsApplied_append (a b : List Event) :
    tagsApplied (a ++ b) = tagsApplied a ++ tagsApplied b := by
  unfold tagsApplied
  exact List.filterMap_append _ _ _

theorem installAttempt_mem_iff (evs : List Event) (p t : String) :
    Event.installAttempt p t ∈ evs ↔ t ∈ installAttemptsFor evs p := by
  unfold installAttemptsFor
  rw [List.mem_filterMap]
  constructor
  · intro h
    exact ⟨_, h, by simp⟩
  · rintro ⟨e, he, hm⟩
    cases e with
    | installAttempt q u =>
      by_cases hq : q = p
      · subst hq
        simp at hm
        subst hm
        exact he
      · simp [hq] at hm
    | consider a => simp at hm
    | addGlobalTag a => simp at hm
    | applyTagCall a b c => simp at hm
    | declareCmd a b c => simp at hm

theorem installAttemptsFor_applyTag (st : EngineState) (n v tg q : String) :
    installAttemptsFor (applyTag st n v tg).2 q = [] := by
  unfold applyTag
  cases h : st.localT.has_version n v <;> simp [h, installAttemptsFor]

theorem tagsApplied_applyTag (st : EngineState) (n v tg : String) :
    ∀ u ∈ tagsApplied (applyTag st n v tg).2, u = tg := by
  unfold applyTag
  cases h : st.localT.has_version n v <;> simp [h, tagsApplied]

theorem applyTagCall_mem_applyTag (st : EngineState) (n v tg : String) :
    Event.applyTagCall n v tg ∈ (applyTag st n v tg).2 := by
  unfold applyTag
  cases h : st.localT.has_version n v <;> simp [h]

theorem installAttemptsFor_applyFold (tg : String)
    (xs : List (String × String)) (st : EngineState) (q : String) :
    installAttemptsFor
      (foldEvents (fun s pv => applyTag s pv.1 pv.2 tg) st xs).2 q = [] := by
  induction xs generalizing st with
  | nil => rfl
  | cons x xs ih =>
    rw [foldEvents_cons, installAttemptsFor_append,
      installAttemptsFor_applyTag, ih]
    rfl

theorem tagsApplied_applyFold (tg : String) (xs : List (String × String))
    (st : EngineState) :
    ∀ u ∈ tagsApplied
      (foldEvents (fun s pv => applyTag s pv.1 pv.2 tg) st xs).2, u = tg := by
  induction xs generalizing st with
  | nil => intro u hu; simp [foldEvents, tagsApplied] at hu
  | cons x xs ih =>
    intro u hu
    rw [foldEvents_cons, tagsApplied_append] at hu
    rcases List.mem_append.mp hu with h | h
    · exact tagsApplied_applyTag _ _ _ _ u h
    · exact ih _ u h

theorem applyTagCall_mem_applyFold (tg : String) (xs : List (String × String))
    (st : EngineState) (sub ver : String) (h : (sub, ver) ∈ xs) :
    Event.applyTagCall sub ver tg ∈
      (foldEvents (fun s pv => applyTag s pv.1 pv.2 tg) st xs).2 := by
  induction xs generalizing st with
  | nil => simp at h
  | cons x xs ih =>
    rw [foldEvents_cons]
    rcases List.mem_cons.mp h with h1 | h1
    · subst h1
      exact List.mem_append_left _ (applyTagCall_mem_applyTag _ _ _ _)
    · exact List.mem_append_right _ (ih _ h1)

theorem tagsApplied_cons_install (p t : String) (evs : List Event) :
    tagsApplied (Event.installAttempt p t :: evs) = tagsApplied evs := rfl

theorem tagsApplied_cons_global (t : String) (evs : List Event) :
    tagsApplied (Event.addGlobalTag t :: evs) = tagsApplied evs := rfl

theorem tagsApplied_cons_consider (p : String) (evs : List Event) :
    tagsApplied (Event.consider p :: evs) = tagsApplied evs := rfl

theorem installAttemptsFor_cons_consider (p : String) (evs : List Event)
    (q : String) :
    installAttemptsFor (Event.consider p :: evs) q = installAttemptsFor evs q := rfl

theorem installAttemptsFor_cons_global (t : String) (evs : List Event)
    (q : String) :
    installAttemptsFor (Event.addGlobalTag t :: evs) q =
      installAttemptsFor evs q := rfl

theorem installAttemptsFor_cons_install_self (p t : String) (evs : List Event) :
    installAttemptsFor (Event.installAttempt p t :: evs) p =
      t :: installAttemptsFor evs p := by
  unfold installAttemptsFor
  rw [List.filterMap_cons]
  simp

theorem installAttemptsFor_processTag (rm : RepoM) (o : Oracle)
    (st : EngineState) (p t : String) :
    installAttemptsFor (processTag rm o st p t).2 p = [t] := by
  unfold processTag
  cases o st p t with
  | none => simp [installAttemptsFor]
  | some newT =>
    dsimp only
    by_cases hg : t ∈ st.globalTags
    · simp only [if_pos hg]
      rw [installAttemptsFor_cons_install_self, List.nil_append,
        installAttemptsFor_applyFold]
    · simp only [if_neg hg]
      rw [installAttemptsFor_cons_install_self, installAttemptsFor_append,
        installAttemptsFor_cons_global]
      show t :: (installAttemptsFor [] p ++ _) = [t]
      rw [installAttemptsFor_applyFold]
      rfl

theorem tagsApplied_processTag (rm : RepoM) (o : Oracle) (st : EngineState)
    (p t : String) :
    ∀ u ∈ tagsApplied (processTag rm o st p t).2, u = t := by
  unfold processTag
  cases o st p t with
  | none => intro u hu; simp [tagsApplied] at hu
  | some newT =>
    dsimp only
    intro u hu
    by_cases hg : t ∈ st.globalTags
    · simp only [if_pos hg] at hu
      rw [tagsApplied_cons_install, List.nil_append] at hu
      exact tagsApplied_applyFold _ _ _ u hu
    · simp only [if_neg hg] at hu
      rw [tagsApplied_cons_install, tagsApplied_append,
        tagsApplied_cons_global] at hu
      rcases List.mem_append.mp hu with h1 | h1
      · simp [tagsApplied] at h1
      · exact tagsApplied_applyFold _ _ _ u h1

theorem installAttemptsFor_processFold (rm : RepoM) (o : Oracle) (p : String)
    (xs : List String) (st : EngineState) :
    installAttemptsFor
      (foldEvents (fun s tg => processTag rm o s p tg) st xs).2 p = xs := by
  induction xs generalizing st with
  | nil => rfl
  | cons x xs ih =>
    rw [foldEvents_cons, installAttemptsFor_append,
      installAttemptsFor_processTag, ih]
    rfl

theorem tagsApplied_processFold (rm : RepoM) (o : Oracle) (p : String)
    (xs : List String) (st : EngineState) :
    ∀ u ∈ tagsApplied
      (foldEvents (fun s tg => processTag rm o s p tg) st xs).2, u ∈ xs := by
  induction xs generalizing st with
  | nil => intro u hu; simp [foldEvents, tagsApplied] at hu
  | cons x xs ih =>
    intro u hu
    rw [foldEvents_cons, tagsApplied_append] at hu
    rcases List.mem_append.mp hu with h | h
    · exact (tagsApplied_processTag rm o st p x u h) ▸ List.mem_cons_self _ _
    · exact List.mem_cons_of_mem _ (ih _ u h)

theorem installAttemptsFor_installPhase (rm : RepoM) (o : Oracle)
    (st : EngineState) (p : String) :
    installAttemptsFor (installPhase rm o st p).2 p = candidateTags rm st p := by
  unfold installPhase
  exact installAttemptsFor_processFold rm o p _ st

theorem tagsApplied_installPhase (rm : RepoM) (o : Oracle) (st : EngineState)
    (p : String) :
    ∀ u ∈ tagsApplied (installPhase rm o st p).2, u ∈ candidateTags rm st p := by
  unfold installPhase
  exact tagsApplied_processFold rm o p _ st

theorem chooseCurrent_nil (rm : RepoM) : chooseCurrent rm [] = none := rfl

theorem installAttemptsFor_currentPhase (rm : RepoM) (st : EngineState)
    (p q : String) :
    installAttemptsFor (currentPhase rm st p).2 q = [] := by
  unfold currentPhase
  cases chooseCurrent rm (availableTags rm st p) with
  | none => rfl
  | some cur => exact installAttemptsFor_applyFold _ _ _ _

theorem tagsApplied_currentPhase (rm : RepoM) (st : EngineState) (p : String) :
    ∀ u ∈ tagsApplied (currentPhase rm st p).2, u = "current" := by
  unfold currentPhase
  cases chooseCurrent rm (availableTags rm st p) with
  | none => intro u hu; simp [tagsApplied] at hu
  | some cur => exact tagsApplied_applyFold _ _ _

theorem currentPhase_empty (rm : RepoM) (st : EngineState) (p : String)
    (h : availableTags rm st p = []) : currentPhase rm st p = (st, []) := by
  unfold currentPhase
  rw [h]
  rfl

theorem applyTagCall_mem_currentPhase (rm : RepoM) (st : EngineState)
    (p cur sub ver : String)
    (h : chooseCurrent rm (availableTags rm st p) = some cur)
    (hm : (sub, ver) ∈ rm.products_for_tag cur) :
    Event.applyTagCall sub ver "current" ∈ (currentPhase rm st p).2 := by
  unfold currentPhase
  rw [h]
  exact applyTagCall_mem_applyFold _ _ _ _ _ hm

theorem processProduct_events (rm : RepoM) (o : Oracle) (st : EngineState)
    (p : String) :
    (processProduct rm o st p).2 =
      Event.consider p :: ((installPhase rm o st p).2 ++
        (currentPhase rm (installPhase rm o st p).1 p).2) := rfl

theorem installAttemptsFor_processProduct (rm : RepoM) (o : Oracle)
    (st : EngineState) (p : String) :
    installAttemptsFor (processProduct rm o st p).2 p =
      candidateTags rm st p := by
  rw [processProduct_events, installAttemptsFor_cons_consider,
    installAttemptsFor_append, installAttemptsFor_installPhase,
    installAttemptsFor_currentPhase]
  simp

theorem mem_candidateTags (rm : RepoM) (st : EngineState) (p t : String) :
    t ∈ candidateTags rm st p ↔
      t ∈ rm.tags_for_product p ∧ t ∉ st.localT.tags_for_product p := by
  unfold candidateTags
  simp [List.mem_filter]

theorem consider_mem_mainLoop (rm : RepoM) (o : Oracle)
    (products : List String) (st : EngineState) (q : String)
    (h : q ∈ products) :
    Event.consider q ∈ (mainLoop rm o st products).2 := by
  induction products generalizing st with
  | nil => simp at h
  | cons x xs ih =>
    unfold mainLoop
    rw [foldEvents_cons]
    rcases List.mem_cons.mp h with h1 | h1
    · subst h1
      refine List.mem_append_left _ ?_
      rw [processProduct_events]
      exact List.mem_cons_self _ _
    · exact List.mem_append_right _ (ih _ h1)

theorem foldl_max_spec (key : String → Nat) (xs : List String) (a : String) :
    (xs.foldl (fun acc y => if key y > key acc then y else acc) a = a ∨
      xs.foldl (fun acc y => if key y > key acc then y else acc) a ∈ xs) ∧
    key a ≤ key (xs.foldl (fun acc y => if key y > key acc then y else acc) a) ∧
    ∀ y ∈ xs,
      key y ≤ key (xs.foldl (fun acc y => if key y > key acc then y else acc) a) := by
  induction xs generalizing a with
  | nil => simp
  | cons x xs ih =>
    simp only [List.foldl_cons]
    by_cases h : key x > key a
    · rw [if_pos h]
      obtain ⟨hmem, hle, hall⟩ := ih x
      refine ⟨?_, le_trans (le_of_lt h) hle, ?_⟩
      · rcases hmem with h1 | h1
        · exact Or.inr (by rw [h1]; exact List.mem_cons_self _ _)
        · exact Or.inr (List.mem_cons_of_mem _ h1)
      · intro y hy
        rcases List.mem_cons.mp hy with h1 | h1
        · exact h1 ▸ hle
        · exact hall y h1
    · rw [if_neg h]
      obtain ⟨hmem, hle, hall⟩ := ih a
      refine ⟨?_, hle, ?_⟩
      · rcases hmem with h1 | h1
        · exact Or.inl h1
        · exact Or.inr (List.mem_cons_of_mem _ h1)
      · intro y hy
        rcases List.mem_cons.mp hy with h1 | h1
        · exact h1 ▸ le_trans (le_of_not_lt h) hle
        · exact hall y h1

theorem pyMaxBy_spec (key : String → Nat) (xs : List String) (h : xs ≠ []) :
    ∃ m, pyMaxBy key xs = some m ∧ m ∈ xs ∧ ∀ y ∈ xs, key y ≤ key m := by
  cases xs with
  | nil => exact absurd rfl h
  | cons a as =>
    obtain ⟨hmem, hle, hall⟩ := foldl_max_spec key as a
    refine ⟨_, rfl, ?_, ?_⟩
    · rcases hmem with h1 | h1
      · exact by rw [h1]; exact List.mem_cons_self _ _
      · exact List.mem_cons_of_mem _ h1
    · intro y hy
      rcases List.mem_cons.mp hy with h1 | h1
      · exact h1 ▸ hle
      · exact hall y h1

theorem foldl_max_const (key : String → Nat) (xs : List String) (a : String)
    (h : ∀ y ∈ xs, key y ≤ key a) :
    xs.foldl (fun acc y => if key y > key acc then y else acc) a = a := by
  induction xs with
  | nil => rfl
  | cons x xs ih =>
    simp only [List.foldl_cons]
    rw [if_neg (not_lt_of_le (h x (List.mem_cons_self _ _)))]
    exact ih (fun y hy => h y (List.mem_cons_of_mem _ hy))

theorem pyMaxBy_all_eq (key : String → Nat) (xs : List String)
    (h : ∀ u ∈ xs, ∀ w ∈ xs, key u = key w) :
    pyMaxBy key xs = xs.head? := by
  cases xs with
  | nil => rfl
  | cons a as =>
    unfold pyMaxBy
    dsimp only
    rw [foldl_max_const key as a (fun y hy =>
      le_of_eq (h y (List.mem_cons_of_mem _ hy) a (List.mem_cons_self _ _)))]
    rfl

/-- A one-product remote catalog used as a concrete test input. -/
def trackerEx : ProductTracker :=
  ⟨[("alpha", ⟨"alpha", [("1.0", ["w1"])]⟩)]⟩

/-- Remote manager serving product `alpha` with tag `w1` dated 10. -/
def rmEx : RepoM := ⟨trackerEx, [("w1", 10)]⟩

/-- An empty local stack with no global tags. -/
def st0 : EngineState := ⟨⟨[]⟩, []⟩

/-- Oracle on which every install command exits nonzero. -/
def outFail : Oracle := fun _ _ _ => none

/-- Oracle on which every install command succeeds, refreshing to an
empty inventory. -/
def outOk : Oracle := fun _ _ _ => some ⟨[]⟩

/-- Remote catalog with three tags of one product at distinct dates. -/
def trackerABC : ProductTracker :=
  ⟨[("alpha", ⟨"alpha", [("1.0", ["A", "B", "C"])]⟩)]⟩

/-- Dates: tag `A` at 100, tag `B` at 300 (the most recent), `C` at 200. -/
def rmABC : RepoM := ⟨trackerABC, [("A", 100), ("B", 300), ("C", 200)]⟩

/-- Local stack that already has all three tags of `alpha` installed. -/
def stABC : EngineState := ⟨trackerABC, []⟩

/-- Remote catalog where tag `T` covers two products `X` and `Y`. -/
def trackerXY : ProductTracker :=
  ⟨[("X", ⟨"X", [("1.0", ["T"])]⟩), ("Y", ⟨"Y", [("2.0", ["T"])]⟩)]⟩

/-- Remote manager for the fan-out test. -/
def rmXY : RepoM := ⟨trackerXY, [("T", 5)]⟩

/-- Remote manager with two tags sharing the same publication date. -/
def rmTie : RepoM := ⟨⟨[]⟩, [("aaa", 7), ("bbb", 7)]⟩

/-- C1: for every product processed by the reconciliation loop, the set
of tags attempted for installation is exactly
`serverTags − installedTags`; in particular nothing is attempted when
the server tags are a subset of the installed tags. -/
theorem diff_correctness (rm : RepoM) (outcome : Oracle) (st : EngineState)
    (product t : String) :
    (Event.installAttempt product t ∈ (processProduct rm outcome st product).2 ↔
      t ∈ rm.tags_for_product product ∧
        t ∉ st.localT.tags_for_product product) ∧
    ((∀ u ∈ rm.tags_for_product product, u ∈ st.localT.tags_for_product product) →
      Event.installAttempt product t ∉ (processProduct rm outcome st product).2) := by
  have hmain : Event.installAttempt product t ∈
      (processProduct rm outcome st product).2 ↔
      t ∈ candidateTags rm st product := by
    rw [installAttempt_mem_iff, installAttemptsFor_processProduct]
  constructor
  · rw [hmain, mem_candidateTags]
  · intro hsub hmem
    rw [hmain, mem_candidateTags] at hmem
    exact hmem.2 (hsub t hmem.1)

theorem diff_correctness_witness :
    Event.installAttempt "alpha" "w1" ∈
      (processProduct rmEx outFail st0 "alpha").2 :=
  (diff_correctness rmEx outFail st0 "alpha" "w1").1.mpr (by decide)

/-- C2: whenever the available-tag set (remote tags also present locally
after the install phase) is non-empty, the elected current tag is an
available tag of maximal remote publication date. -/
theorem current_tag_recency (rm : RepoM) (outcome : Oracle) (st : EngineState)
    (product : String)
    (h : availableTags rm (installPhase rm outcome st product).1 product ≠ []) :
    ∃ cur,
      chooseCurrent rm
        (availableTags rm (installPhase rm outcome st product).1 product) =
        some cur ∧
      cur ∈ availableTags rm (installPhase rm outcome st product).1 product ∧
      ∀ u ∈ availableTags rm (installPhase rm outcome st product).1 product,
        rm.dateOf u ≤ rm.dateOf cur := by
  unfold chooseCurrent
  exact pyMaxBy_spec rm.dateOf _ h

theorem current_tag_recency_witness :
    (∃ cur,
      chooseCurrent rmABC
        (availableTags rmABC (installPhase rmABC outFail stABC "alpha").1 "alpha") =
        some cur ∧
      cur ∈ availableTags rmABC (installPhase rmABC outFail stABC "alpha").1 "alpha" ∧
      ∀ u ∈ availableTags rmABC (installPhase rmABC outFail stABC "alpha").1 "alpha",
        rmABC.dateOf u ≤ rmABC.dateOf cur) ∧
    chooseCurrent rmABC
      (availableTags rmABC (installPhase rmABC outFail stABC "alpha").1 "alpha") =
      some "B" :=
  ⟨current_tag_recency rmABC outFail stABC "alpha" (by decide), by decide⟩

/-- C3: an install failure never aborts the run — every product in the
list is still considered, the install attempts for a product are exactly
its candidate tags regardless of failures, and the current-tag election
still runs on whatever ended up available. -/
theorem failure_isolation (rm : RepoM) (outcome : Oracle) (st : EngineState)
    (products : List String) (p t : String)
    (_hp : p ∈ products) (_ht : t ∈ candidateTags rm st p)
    (_hfail : ∀ s, outcome s p t = none) :
    (∀ q ∈ products, Event.consider q ∈ (mainLoop rm outcome st products).2) ∧
    installAttemptsFor (processProduct rm outcome st p).2 p =
      candidateTags rm st p ∧
    (∀ cur sub ver,
      chooseCurrent rm (availableTags rm (installPhase rm outcome st p).1 p) =
        some cur →
      (sub, ver) ∈ rm.products_for_tag cur →
      Event.applyTagCall sub ver "current" ∈
        (processProduct rm outcome st p).2) := by
  refine ⟨fun q hq => consider_mem_mainLoop rm outcome products st q hq,
    installAttemptsFor_processProduct rm outcome st p, ?_⟩
  intro cur sub ver hcur hmem
  rw [processProduct_events]
  exact List.mem_cons_of_mem _ (List.mem_append_right _
    (applyTagCall_mem_currentPhase rm _ p cur sub ver hcur hmem))

theorem failure_isolation_witness :
    installAttemptsFor (processProduct rmEx outFail st0 "alpha").2 "alpha" =
      candidateTags rmEx st0 "alpha" :=
  (failure_isolation rmEx outFail st0 ["alpha"] "alpha" "w1"
    (by decide) (by decide) (fun _ => rfl)).2.1

/-- C4: after a successful install of a tag, `apply_tag` is invoked for
every `(sub_product, version)` pair the remote catalog reports under
that tag, not only for the product being iterated. -/
theorem fanout_declare (rm : RepoM) (outcome : Oracle) (st : EngineState)
    (product tag : String) (newT : ProductTracker)
    (hsucc : outcome st product tag = some newT)
    (sub ver : String) (hmem : (sub, ver) ∈ rm.products_for_tag tag) :
    Event.applyTagCall sub ver tag ∈ (processTag rm outcome st product tag).2 := by
  unfold processTag
  rw [hsucc]
  dsimp only
  by_cases hg : tag ∈ st.globalTags
  · simp only [if_pos hg]
    exact List.mem_cons_of_mem _ (List.mem_append_right _
      (applyTagCall_mem_applyFold _ _ _ _ _ hmem))
  · simp only [if_neg hg]
    exact List.mem_cons_of_mem _ (List.mem_append_right _
      (applyTagCall_mem_applyFold _ _ _ _ _ hmem))

theorem fanout_declare_witness :
    Event.applyTagCall "X" "1.0" "T" ∈ (processTag rmXY outOk st0 "X" "T").2 ∧
    Event.applyTagCall "Y" "2.0" "T" ∈ (processTag rmXY outOk st0 "X" "T").2 :=
  ⟨fanout_declare rmXY outOk st0 "X" "T" ⟨[]⟩ rfl "X" "1.0" (by decide),
    fanout_declare rmXY outOk st0 "X" "T" ⟨[]⟩ rfl "Y" "2.0" (by decide)⟩

/-- C5: evaluation of the local-inventory parser at concrete lines.  The
tag list `setup:w_2020_10` yields `{w_2020_10}` as the claim states, but
the Python membership test `tag in ("setup")` is a substring check on
the string `"setup"`, so a tag list `set:w_2020_10` also yields only
`{w_2020_10}`: the tag `set`, although different from the literal
`setup`, is dropped as well, contradicting the claim that exactly the
literal tag `setup` is excluded. -/
theorem setup_filter_code_eval :
    ProductTracker.tags_for_product
      (refreshLine ⟨[]⟩ "foo" "1.0" "set:w_2020_10") "foo" = ["w_2020_10"] ∧
    ProductTracker.tags_for_product
      (refreshLine ⟨[]⟩ "foo" "1.0" "setup:w_2020_10") "foo" = ["w_2020_10"] ∧
    strIn "set" "setup" = true ∧ "set" ≠ "setup" := by
  decide

/-- C6 counterexample: with two available tags of equal publication
date, the election returns whichever tag comes first in the iteration
order of the set — the same set presented in its two possible orders
yields two different results, and neither run consults the tag name. -/
theorem tie_break_counterexample :
    chooseCurrent rmTie ["bbb", "aaa"] = some "bbb" ∧
    chooseCurrent rmTie ["aaa", "bbb"] = some "aaa" ∧
    RepoM.dateOf rmTie "aaa" = RepoM.dateOf rmTie "bbb" ∧
    (["bbb", "aaa"] : List String).Perm ["aaa", "bbb"] :=
  ⟨by decide, by decide, by decide, List.Perm.swap "aaa" "bbb" []⟩

/-- C6 amended: when every available tag carries the same publication
date, the election returns the first tag in iteration order (Python
`max` keeps the incumbent on ties); the tie-break is positional, not
lexicographic on the tag name, and the Python set iteration order that
feeds it is not specified. -/
theorem tie_break_iteration_order (rm : RepoM) (av : List String)
    (h : ∀ u ∈ av, ∀ w ∈ av, rm.dateOf u = rm.dateOf w) :
    chooseCurrent rm av = av.head? := by
  unfold chooseCurrent
  exact pyMaxBy_all_eq rm.dateOf av h

theorem tie_break_iteration_order_witness :
    chooseCurrent rmTie ["bbb", "aaa"] = (["bbb", "aaa"] : List String).head? :=
  tie_break_iteration_order rmTie ["bbb", "aaa"] (by decide)

/-- C7: when no remote tag of the product is locally present after the
install phase (for instance because every candidate install failed), the
run applies no `"current"` tag at all for that iteration; the reserved
name `"current"` is never served by the remote catalog. -/
theorem empty_availability_no_current (rm : RepoM) (outcome : Oracle)
    (st : EngineState) (product : String)
    (hres : "current" ∉ rm.tags_for_product product)
    (hempty : availableTags rm (installPhase rm outcome st product).1 product = []) :
    "current" ∉ tagsApplied (processProduct rm outcome st product).2 := by
  have h2 : (currentPhase rm (installPhase rm outcome st product).1 product).2 =
      ([] : List Event) := by
    rw [currentPhase_empty rm _ product hempty]
  intro hmem
  rw [processProduct_events, tagsApplied_cons_consider, tagsApplied_append,
    h2] at hmem
  rcases List.mem_append.mp hmem with hmem1 | hmem1
  · have h3 := tagsApplied_installPhase rm outcome st product "current" hmem1
    rw [mem_candidateTags] at h3
    exact hres h3.1
  · simp [tagsApplied] at hmem1

theorem empty_availability_no_current_witness :
    "current" ∉ tagsApplied (processProduct rmEx outFail st0 "alpha").2 :=
  empty_availability_no_current rmEx outFail st0 "alpha" (by decide) (by decide)

/-- C8: querying the tags of a version that was never registered fails
with a `KeyError` (`none`), while a registered version with no tags
returns the empty set — `no tags` and `no such version` are
distinguished. -/
theorem tags_version_not_found (p : Product) (v : String)
    (h : p.hasVersionB v = false) :
    p.tagsOf v = none ∧ (p.add_version v).tagsOf v = some [] ∧
    (p.add_version v).hasVersionB v = true := by
  have hl : lookupA p.versions v = none := by
    unfold Product.hasVersionB at h
    cases hx : lookupA p.versions v with
    | none => rfl
    | some ts => rw [hx] at h; simp at h
  have h2 : (p.add_version v).tagsOf v = some [] := by
    unfold Product.tagsOf Product.add_version
    rw [if_pos hl]
    show lookupA (p.versions ++ [(v, [])]) v = some []
    rw [lookupA_append_of_none _ _ _ hl]
    simp [lookupA]
  refine ⟨hl, h2, ?_⟩
  unfold Product.hasVersionB
  unfold Product.tagsOf at h2
  rw [h2]
  rfl

theorem tags_version_not_found_witness :
    (Product.mk "foo" []).tagsOf "1.0" = none ∧
    ((Product.mk "foo" []).add_version "1.0").tagsOf "1.0" = some [] ∧
    ((Product.mk "foo" []).add_version "1.0").hasVersionB "1.0" = true :=
  tags_version_not_found (Product.mk "foo" []) "1.0" (by decide)

/-- C9: `ProductTracker.insert` is total — the `KeyError`-surfacing form
never returns `none` — and inserting the same
`(product, version, tag)` triple twice leaves the tracker exactly as
one insertion does. -/
theorem insert_total_idempotent (pt : ProductTracker) (product version : String)
    (tag : Option String) :
    ProductTracker.insertE pt product version tag =
      some (ProductTracker.insert pt product version tag) ∧
    ProductTracker.insert (ProductTracker.insert pt product version tag)
        product version tag =
      ProductTracker.insert pt product version tag :=
  ⟨insertE_some pt product version tag, insert_insert pt product version tag⟩

/-- C10: the empty tracker satisfies the every-product-has-a-version
invariant, `insert` (the only mutating operation, also underlying
`apply_tag` and the inventory parser) preserves it, and under it
`tags_for_product` never hits the empty-union error of
`Product.tags()`. -/
theorem tracker_version_invariant :
    ProductTracker.Inv ⟨[]⟩ ∧
    (∀ (pt : ProductTracker) (product version : String) (tag : Option String),
      pt.Inv → (pt.insert product version tag).Inv) ∧
    (∀ (pt : ProductTracker) (name : String), pt.Inv →
      pt.tags_for_productE name = some (pt.tags_for_product name)) :=
  ⟨fun e he => absurd he (List.not_mem_nil e), Inv_insert,
    tags_for_productE_some⟩

theorem tracker_version_invariant_witness :
    ProductTracker.tags_for_productE
      (ProductTracker.insert ⟨[]⟩ "x" "1.0" (some "t")) "x" =
      some (ProductTracker.tags_for_product
        (ProductTracker.insert ⟨[]⟩ "x" "1.0" (some "t")) "x") :=
  tracker_version_invariant.2.2
    (ProductTracker.insert ⟨[]⟩ "x" "1.0" (some "t")) "x" (by decide)
